import Mathlib

/-!
Shallow embedding of the YAML transformation pipeline of
`script/src/script/pull_common.py` (repository GuizhanCraft/translation-center),
together with the caller logic of `script/src/script/pull_sources.py`.

Python values flowing through the pipeline are modelled by the inductive
type `Yaml`:
  * `str s`   — a plain Python `str` scalar;
  * `lit s`   — a `ruamel.yaml.scalarstring.LiteralScalarString` (a subclass
                of `str`, emitted in literal block style);
  * `num n`   — an int (floats behave identically in the pipeline: both are
                neither `dict`, `list` nor `str`, so only one constructor is
                needed);
  * `boolv b` — a bool;
  * `null`    — Python `None` (also the result of loading an empty document);
  * `seq xs`  — a YAML sequence (Python list);
  * `map kvs` — a YAML mapping (Python ordered dict), with insertion order.
The absent/dropped sentinel `None` returned by `process_yaml_data` is
modelled by `Option Yaml` (`none` = dropped).
-/

inductive Yaml where
  | str (s : String)
  | lit (s : String)
  | num (n : Int)
  | boolv (b : Bool)
  | null
  | seq (xs : List Yaml)
  | map (kvs : List (String × Yaml))
  deriving Repr

namespace Yaml

/-- Python `isinstance(x, str)`: true for plain strings and for
`LiteralScalarString` (which subclasses `str`). -/
def isStr : Yaml → Bool
  | .str _ => true
  | .lit _ => true
  | _ => false

/-- Python `isinstance(x, (dict, list))`. -/
def isContainer : Yaml → Bool
  | .seq _ => true
  | .map _ => true
  | _ => false

/-- The underlying character content of a string scalar (only applied to
values satisfying `isStr`). -/
def strVal : Yaml → String
  | .str s => s
  | .lit s => s
  | _ => ""

end Yaml

/-- `all(isinstance(item, str) for item in data)`. -/
def seqAllStr (xs : List Yaml) : Bool := xs.all Yaml.isStr

/-- `"\n".join(data)` on a list of string scalars. -/
def joinStrings (xs : List Yaml) : String :=
  String.intercalate "\n" (xs.map Yaml.strVal)

mutual

/-- `process_yaml_data` from pull_common.py: recursively keep only string
values, convert all-string lists to multiline literal strings, drop other
data types.  `none` models the Python `None` ("absent") result. -/
def process_yaml_data : Yaml → Option Yaml
  | .map kvs =>
      let result := processMapEntries kvs
      if result.isEmpty then none else some (.map result)
  | .seq xs =>
      if xs.isEmpty then none
      else if seqAllStr xs then some (.lit (joinStrings xs))
      else
        let processed := processSeqItems xs
        if !processed.isEmpty && seqAllStr processed then
          some (.lit (joinStrings processed))
        else if processed.isEmpty then none
        else some (.seq processed)
  | .str s => some (.str s)
  | .lit s => some (.lit s)
  | .num _ => none
  | .boolv _ => none
  | .null => none

/-- The dict branch of `process_yaml_data`: for each key process the value
and keep the key only when the processed value is not `None`
(insertion order preserved). -/
def processMapEntries : List (String × Yaml) → List (String × Yaml)
  | [] => []
  | (k, v) :: rest =>
      match process_yaml_data v with
      | some pv => (k, pv) :: processMapEntries rest
      | none => processMapEntries rest

/-- The mixed-list branch of `process_yaml_data`: keep string items as they
are, recursively process dict/list items keeping non-`None` results, and
drop every other item. -/
def processSeqItems : List Yaml → List Yaml
  | [] => []
  | item :: rest =>
      if item.isStr then item :: processSeqItems rest
      else if item.isContainer then
        match process_yaml_data item with
        | some p => p :: processSeqItems rest
        | none => processSeqItems rest
      else processSeqItems rest

end

/-- Python truthiness of a processed YAML value (`if processed_data`). -/
def yamlTruthy : Yaml → Bool
  | .str s => !s.isEmpty
  | .lit s => !s.isEmpty
  | .num n => n != 0
  | .boolv b => b
  | .null => false
  | .seq xs => !xs.isEmpty
  | .map kvs => !kvs.isEmpty

/-- `return processed_data if processed_data else {}` at the end of
`process_yaml_content` (a `None` or falsy result becomes the empty dict). -/
def finalizeProcessed : Option Yaml → Yaml
  | none => .map []
  | some d => if yamlTruthy d then d else .map []

/-- Lower-case the characters of a string, modelling the effect of
`re.IGNORECASE` on the ASCII-only skip patterns. -/
def lowerChars (s : String) : List Char := s.toList.map Char.toLower

/-- `pat` occurs as a contiguous substring of `l`. -/
def isInfixOfChars (pat : List Char) : List Char → Bool
  | [] => pat.isEmpty
  | c :: rest => pat.isPrefixOf (c :: rest) || isInfixOfChars pat rest

/-- `re.search("#.*" ++ phrase, line)` on a single line (no newline in the
line, so `.*` matches arbitrary characters): some `#` occurs in the line
and `phrase` occurs somewhere after it. -/
def hashThenPhrase (phrase : List Char) : List Char → Bool
  | [] => false
  | c :: rest => (c == '#' && isInfixOfChars phrase rest) || hashThenPhrase phrase rest

/-- The phrase parts of the four `skip_patterns` regexes of
`should_skip_line` (each source pattern is `"#.*"` followed by one of
these, searched with `re.IGNORECASE`). -/
def skip_phrases : List String :=
  ["DO NOT translate", "do not translate", "Don't translate", "don't translate"]

/-- `should_skip_line` from pull_common.py: the line is dropped when any of
the four `#.*<phrase>` patterns matches case-insensitively. -/
def should_skip_line (line : String) : Bool :=
  skip_phrases.any fun p => hashThenPhrase (lowerChars p) (lowerChars line)

/-- Python `content.split("\n")` on the character list: split at every
newline, keeping empty pieces (`[] ↦ [""]`, `"a\n" ↦ ["a", ""]`). -/
def splitLinesChars : List Char → List (List Char)
  | [] => [[]]
  | c :: rest =>
      match splitLinesChars rest with
      | [] => [[c]]
      | h :: t => if c = '\n' then [] :: h :: t else (c :: h) :: t

/-- Python `content.split("\n")`. -/
def splitLines (s : String) : List String :=
  (splitLinesChars s.data).map String.mk

/-- The line-filtering stage of `process_yaml_content`: split on `"\n"`,
drop the lines `should_skip_line` flags, re-join with `"\n"`. -/
def filter_skip_lines (content : String) : String :=
  String.intercalate "\n"
    ((splitLines content).filter fun l => !should_skip_line l)

/-- `process_yaml_content` from pull_common.py, with the ruamel `load` call
abstracted as the `parse` argument applied to the filtered content
(`Except.error` models a raised parse exception, which the function catches
and turns into `{}`; loading an explicit empty document yields Python
`None`, i.e. `Yaml.null`). -/
def process_yaml_content (parse : String → Except Unit Yaml) (content : String) : Yaml :=
  match parse (filter_skip_lines content) with
  | .error _ => .map []
  | .ok data => finalizeProcessed (process_yaml_data data)

/-- Scalars (and the empty sequence) that `process_yaml_data` always maps to
the absent sentinel: empty sequences, numbers, booleans and `None`. -/
def droppedValue : Yaml → Bool
  | .seq [] => true
  | .num _ => true
  | .boolv _ => true
  | .null => true
  | _ => false

mutual

/-- A document in the canonical image of the reducer: string scalars
(plain or literal) and non-empty mappings of canonical values — no
sequences, no numeric/boolean/null scalars. -/
def canonicalDoc : Yaml → Bool
  | .str _ => true
  | .lit _ => true
  | .map kvs => !kvs.isEmpty && canonicalKVs kvs
  | _ => false

def canonicalKVs : List (String × Yaml) → Bool
  | [] => true
  | (_, v) :: rest => canonicalDoc v && canonicalKVs rest

end

mutual

/-- Python structural equality `==` between two loaded YAML values:
mappings compare as dicts (same size, same key set, equal values —
insertion order is ignored), sequences compare pointwise,
`LiteralScalarString` equals the plain `str` with the same content,
`True`/`False` equal the ints `1`/`0`. -/
def pyEq : Yaml → Yaml → Bool
  | .str a, .str b => a == b
  | .str a, .lit b => a == b
  | .lit a, .str b => a == b
  | .lit a, .lit b => a == b
  | .num a, .num b => a == b
  | .num a, .boolv b => a == (if b then 1 else 0)
  | .boolv a, .num b => (if a then (1 : Int) else 0) == b
  | .boolv a, .boolv b => a == b
  | .null, .null => true
  | .seq a, .seq b => pySeqEq a b
  | .map a, .map b => a.length == b.length && pyMapSubset a b
  | _, _ => false
termination_by a _ => (sizeOf a, 0)

def pySeqEq : List Yaml → List Yaml → Bool
  | [], [] => true
  | x :: xs, y :: ys => pyEq x y && pySeqEq xs ys
  | _, _ => false
termination_by a _ => (sizeOf a, 0)

def pyMapSubset : List (String × Yaml) → List (String × Yaml) → Bool
  | [], _ => true
  | (k, v) :: rest, b => pyMapLookupEq k v b && pyMapSubset rest b
termination_by a _ => (sizeOf a, 0)

def pyMapLookupEq (k : String) (v : Yaml) : List (String × Yaml) → Bool
  | [] => false
  | (l, w) :: rest => (k == l && pyEq v w) || pyMapLookupEq k v rest
termination_by b => (sizeOf v, 1 + sizeOf b)

end

/-- `save_yaml_file` from pull_common.py.  The filesystem is modelled by
the optional current contents of the target file; the ruamel load of the
existing file and the configured dump of the new data are the `parse` and
`dump` arguments (`parse` returning `Except.error` models a raised read or
parse exception, which the function catches and treats as "changed").
Returns the new file contents together with the returned `bool`
("whether the file is updated"). -/
def save_yaml_file (parse : String → Except Unit Yaml) (dump : Yaml → String)
    (data : Yaml) (file : Option String) : Option String × Bool :=
  let file_changed :=
    match file with
    | none => true
    | some s =>
        match parse s with
        | .error _ => true
        | .ok existing => !(pyEq existing data)
  if file_changed then (some (dump data), true) else (file, false)

/-- `pull_file` from pull_sources.py, for a single file: the download and
the save are abstracted as arguments (`Except.error` models a raised
exception, caught by the surrounding `try`/`except`, which returns
`False`).  An empty processed dict (`if not data`) also returns `False`
without saving. -/
def pull_file (parse : String → Except Unit Yaml) (save : Yaml → Except Unit Bool)
    (download : Except Unit String) : Bool :=
  match download with
  | .error _ => false
  | .ok content =>
      let data := process_yaml_content parse content
      if !(yamlTruthy data) then false
      else
        match save data with
        | .error _ => false
        | .ok updated => updated

/-- The file loop of `pull_repo` from pull_sources.py: each configured file
(a target name paired with its download outcome) is processed in turn, and
the names of the files reported updated are accumulated; one file's
failure never stops the loop. -/
def pull_repo (parse : String → Except Unit Yaml) (save : Yaml → Except Unit Bool) :
    List (String × Except Unit String) → List String
  | [] => []
  | (name, download) :: rest =>
      if pull_file parse save download then name :: pull_repo parse save rest
      else pull_repo parse save rest

/-- The raw text of the scenario document
`{a: [x, y], b: 5, c: {d: "ok", e: []}}` in block style. -/
def c1_input_text : String :=
  "a:\n- x\n- y\nb: 5\nc:\n  d: ok\n  e: []"

/-- The tree ruamel's round-trip loader produces for `c1_input_text`. -/
def c1_parsed : Yaml :=
  .map [("a", .seq [.str "x", .str "y"]), ("b", .num 5),
        ("c", .map [("d", .str "ok"), ("e", .seq [])])]

/-- A parse oracle for the scenario: it parses exactly the scenario text
(to the scenario tree) and fails on any other input. -/
def c1_parse : String → Except Unit Yaml := fun s =>
  if s = c1_input_text then .ok c1_parsed else .error ()

/-- The expected pipeline output `{a: "x\ny", c: {d: "ok"}}`, with `a`
collapsed to a literal block scalar. -/
def c1_expected : Yaml :=
  .map [("a", .lit "x\ny"), ("c", .map [("d", .str "ok")])]

/-- A parse oracle for the error-isolation scenario: raises on `"bad"`,
loads the empty document as Python `None`, and parses any other content to
a one-entry mapping. -/
def c8_parse : String → Except Unit Yaml := fun s =>
  if s = "bad" then .error ()
  else if s = "" then .ok .null
  else .ok (.map [("k", .str "v")])

/-!
### A spec-modelled canonical serializer and normalizer

The Canonical Serializer and the YAML Normalizer of the spec are realized
in the repository by the configured `ruamel.yaml` emitter/loader
(`create_yaml`), whose code is a library dependency, not part of the
repository.  The definitions below model them from the spec for documents
in the canonical image of the pipeline (mappings whose values are plain
strings, literal block scalars, or nested such mappings): two-space
indentation, `key: value` lines in source order, literal block scalars
written `key: |-` followed by indented lines, no flow style.  Lines are
represented as character lists.
-/

/-- `n` spaces of indentation. -/
def padC (n : Nat) : List Char := List.replicate n ' '

/-- Join lines with single newline separators (inverse of
`splitLinesChars`). -/
def joinNL : List (List Char) → List Char
  | [] => []
  | [l] => l
  | l :: rest => l ++ '\n' :: joinNL rest

mutual

/-- Modelled from the spec: the lines the Canonical Serializer (the ruamel
emitter configured by `create_yaml`, absent from the repository) produces
for one mapping entry at the given indentation — `key: value` for a plain
string, `key: |-` plus indented lines for a literal block scalar, `key:`
plus a two-space-indented block for a nested mapping. -/
def serValueC (ind : Nat) (k : String) : Yaml → List (List Char)
  | .str s => [padC ind ++ k.data ++ ':' :: ' ' :: s.data]
  | .lit s => (padC ind ++ k.data ++ [':', ' ', '|', '-'])
      :: (splitLinesChars s.data).map (fun l => padC (ind + 2) ++ l)
  | .map m => (padC ind ++ k.data ++ [':']) :: serEntriesC (ind + 2) m
  | _ => []

/-- Modelled from the spec: the serialized lines of a mapping's entries,
in insertion order. -/
def serEntriesC (ind : Nat) : List (String × Yaml) → List (List Char)
  | [] => []
  | (k, v) :: tl => serValueC ind k v ++ serEntriesC ind tl

end

/-- Modelled from the spec: the Canonical Serializer — the serialized text
of a canonical document (root mapping), one line per entry, terminated by
a final newline. -/
def serialize : Yaml → String
  | .map kvs => String.mk (joinNL (serEntriesC 0 kvs) ++ ['\n'])
  | _ => ""

/-- A line opens a mapping entry at exactly the given indentation: it
starts with that many spaces followed by a non-space character. -/
def isEntryLine (ind : Nat) (l : List Char) : Bool :=
  (padC ind).isPrefixOf l &&
    match l.drop ind with
    | [] => false
    | c :: _ => c != ' '

/-- Split a line at its first `:`. -/
def splitAtColon : List Char → Option (List Char × List Char)
  | [] => none
  | c :: rest =>
      if c = ':' then some ([], rest)
      else
        match splitAtColon rest with
        | none => none
        | some (k, a) => some (c :: k, a)

/-- Consume the leading lines that start with the given indentation
prefix, stripping it; return them and the remaining lines. -/
def takeIndented (p : List Char) : List (List Char) → (List (List Char) × List (List Char))
  | [] => ([], [])
  | l :: rest =>
      if p.isPrefixOf l then
        let r := takeIndented p rest
        (l.drop p.length :: r.1, r.2)
      else ([], l :: rest)

/-- Modelled from the spec: the YAML Normalizer (the ruamel round-trip
loader, absent from the repository) restricted to the canonical subset the
serializer emits — parse a run of mapping entries at one indentation
level, returning the entries and the unconsumed lines.  `fuel` bounds the
recursion depth; `none` models a parse error. -/
def parseEntries : Nat → Nat → List (List Char) → Option (List (String × Yaml) × List (List Char))
  | 0, _, _ => none
  | _ + 1, _, [] => some ([], [])
  | fuel + 1, ind, line :: rest =>
      if isEntryLine ind line then
        match splitAtColon (line.drop ind) with
        | none => none
        | some (kc, after) =>
            match after with
            | [] =>
                match parseEntries fuel (ind + 2) rest with
                | none => none
                | some (m, rem) =>
                    match parseEntries fuel ind rem with
                    | none => none
                    | some (kvs, rem') => some ((String.mk kc, Yaml.map m) :: kvs, rem')
            | ' ' :: v =>
                if v = ['|', '-'] then
                  let blk := takeIndented (padC (ind + 2)) rest
                  match parseEntries fuel ind blk.2 with
                  | none => none
                  | some (kvs, rem') =>
                      some ((String.mk kc, Yaml.lit (String.mk (joinNL blk.1))) :: kvs, rem')
                else
                  match parseEntries fuel ind rest with
                  | none => none
                  | some (kvs, rem') =>
                      some ((String.mk kc, Yaml.str (String.mk v)) :: kvs, rem')
            | _ => none
      else some ([], line :: rest)

/-- Modelled from the spec: the YAML Normalizer on a whole document — split
into lines, parse the top-level mapping, and require that everything up to
the final newline was consumed. -/
def parse (text : String) : Option Yaml :=
  let lines := splitLinesChars text.data
  match parseEntries (lines.length + 1) 0 lines with
  | none => none
  | some (kvs, rem) => if rem = [] ∨ rem = [[]] then some (.map kvs) else none

/-- A key the modelled serializer round-trips: non-empty, not starting
with a space, containing no `:` and no newline. -/
def safeKey (k : String) : Bool :=
  !k.data.isEmpty && k.data.head? != some ' '
    && k.data.all fun c => c != ':' && c != '\n'

/-- A plain string value the modelled serializer round-trips: no newline,
and not the exact text `|-` (which would read back as a block scalar). -/
def safeStr (s : String) : Bool :=
  (s.data.all fun c => c != '\n') && s.data != ['|', '-']

mutual

/-- Canonical-image values whose scalars the modelled serializer
round-trips. -/
def safeValue : Yaml → Bool
  | .str s => safeStr s
  | .lit _ => true
  | .map m => safeEntries m
  | _ => false

/-- All keys and values of a mapping are round-trip safe. -/
def safeEntries : List (String × Yaml) → Bool
  | [] => true
  | (k, v) :: tl => safeKey k && safeValue v && safeEntries tl

end

mutual

/-- Recursion fuel sufficient for `parseEntries` on the serialization of a
value. -/
def valueFuel : Yaml → Nat
  | .map m => entriesFuel m
  | _ => 0

/-- Recursion fuel sufficient for `parseEntries` on the serialization of a
mapping's entries. -/
def entriesFuel : List (String × Yaml) → Nat
  | [] => 1
  | (_, v) :: tl => 1 + max (valueFuel v) (entriesFuel tl)

end

/-- The head of the unconsumed line list, as seen by an entry parser at
indentation `ind`: either nothing, an empty line, or a line indented
strictly less than `ind` (a dedent). -/
def headSafe (ind : Nat) : List (List Char) → Prop
  | [] => True
  | l :: _ => l = [] ∨ ∃ j, j < ind ∧ ∃ c t, c ≠ ' ' ∧ l = padC j ++ c :: t

/-! ## Helper lemmas about the reducer -/

theorem seqAllStr_map_str (l : List String) : seqAllStr (l.map Yaml.str) = true := by
  simp [seqAllStr, List.all_map, Function.comp, Yaml.isStr]

theorem joinStrings_map_str (l : List String) :
    joinStrings (l.map Yaml.str) = String.intercalate "\n" l := by
  have h : (l.map Yaml.str).map Yaml.strVal = l := by
    induction l with
    | nil => rfl
    | cons a t ih => simp [Yaml.strVal, ih]
  rw [joinStrings, h]

theorem process_yaml_data_of_dropped (v : Yaml) (h : droppedValue v = true) :
    process_yaml_data v = none := by
  cases v with
  | seq xs =>
      cases xs with
      | nil => rfl
      | cons a t => simp [droppedValue] at h
  | num n => rfl
  | boolv b => rfl
  | null => rfl
  | str s => simp [droppedValue] at h
  | lit s => simp [droppedValue] at h
  | map kvs => simp [droppedValue] at h

theorem processMapEntries_keys_sub (l : List (String × Yaml)) (k : String)
    (h : k ∈ (processMapEntries l).map Prod.fst) : k ∈ l.map Prod.fst := by
  induction l with
  | nil => simp [processMapEntries] at h
  | cons hd tl ih =>
      obtain ⟨k0, v0⟩ := hd
      cases hp : process_yaml_data v0 with
      | some pv =>
          simp only [processMapEntries, hp] at h
          rcases (List.mem_map.mp h) with ⟨kv, hkv, hfst⟩
          rcases List.mem_cons.mp hkv with heq | hmem
          · subst heq; simp [← hfst]
          · exact List.mem_cons_of_mem _ (ih (List.mem_map.mpr ⟨kv, hmem, hfst⟩))
      | none =>
          simp only [processMapEntries, hp] at h
          exact List.mem_cons_of_mem _ (ih h)

theorem processMapEntries_mem_str (l : List (String × Yaml)) (k : String) (s : String)
    (h : (k, Yaml.str s) ∈ l) : (k, Yaml.str s) ∈ processMapEntries l := by
  induction l with
  | nil => simp at h
  | cons hd tl ih =>
      obtain ⟨k0, v0⟩ := hd
      rcases List.mem_cons.mp h with heq | hmem
      · rw [← heq]
        simp [processMapEntries, process_yaml_data]
      · cases hp : process_yaml_data v0 with
        | some pv => simp only [processMapEntries, hp]; exact List.mem_cons_of_mem _ (ih hmem)
        | none => simp only [processMapEntries, hp]; exact ih hmem

theorem processMapEntries_not_mem_dropped (l : List (String × Yaml)) (k : String) (v : Yaml)
    (hnd : (l.map Prod.fst).Nodup) (hmem : (k, v) ∈ l) (hdrop : droppedValue v = true) :
    k ∉ (processMapEntries l).map Prod.fst := by
  induction l with
  | nil => simp at hmem
  | cons hd tl ih =>
      obtain ⟨k0, v0⟩ := hd
      rw [List.map_cons, List.nodup_cons] at hnd
      obtain ⟨hk0, hnd'⟩ := hnd
      rcases List.mem_cons.mp hmem with heq | hmem'
      · rw [Prod.mk.injEq] at heq
        obtain ⟨hk, hv⟩ := heq
        subst hk; subst hv
        simp only [processMapEntries, process_yaml_data_of_dropped v hdrop]
        intro hin
        exact hk0 (processMapEntries_keys_sub tl k hin)
      · have hkin : k ∈ tl.map Prod.fst := List.mem_map.mpr ⟨(k, v), hmem', rfl⟩
        cases hp : process_yaml_data v0 with
        | some pv =>
            simp only [processMapEntries, hp, List.map_cons, List.mem_cons]
            rintro (rfl | hin)
            · exact hk0 hkin
            · exact ih hnd' hmem' hin
        | none =>
            simp only [processMapEntries, hp]
            exact ih hnd' hmem'

theorem processSeqItems_of_allStr (xs : List Yaml) (h : seqAllStr xs = true) :
    processSeqItems xs = xs := by
  induction xs with
  | nil => rfl
  | cons a t ih =>
      simp only [seqAllStr, List.all_cons, Bool.and_eq_true] at h
      obtain ⟨h1, h2⟩ := h
      simp [processSeqItems, h1, ih h2]

mutual

theorem canonical_reduce_id : ∀ d : Yaml, canonicalDoc d = true → process_yaml_data d = some d
  | .str _, _ => rfl
  | .lit _, _ => rfl
  | .num _, h => by simp [canonicalDoc] at h
  | .boolv _, h => by simp [canonicalDoc] at h
  | .null, h => by simp [canonicalDoc] at h
  | .seq _, h => by simp [canonicalDoc] at h
  | .map kvs, h => by
      simp only [canonicalDoc, Bool.and_eq_true, Bool.not_eq_true'] at h
      obtain ⟨h1, h2⟩ := h
      simp [process_yaml_data, canonical_reduceKVs_id kvs h2, h1]

theorem canonical_reduceKVs_id : ∀ l : List (String × Yaml),
    canonicalKVs l = true → processMapEntries l = l
  | [], _ => rfl
  | (k, v) :: rest, h => by
      simp only [canonicalKVs, Bool.and_eq_true] at h
      obtain ⟨h1, h2⟩ := h
      simp [processMapEntries, canonical_reduce_id v h1, canonical_reduceKVs_id rest h2]

end

/-! ## Claims about the reducer and collapser -/

/-- C1: for the input document `{a: [x, y], b: 5, c: {d: "ok", e: []}}`,
the full pipeline of `process_yaml_content` (filter, parse, reduce,
collapse) yields `{a: "x\ny", c: {d: "ok"}}`: `b` is dropped (number),
`c.e` is dropped (empty sequence), and `a` collapses to the single
literal-block string `"x\ny"`; the comment filter leaves this input
unchanged. -/
theorem scenario_pipeline_output :
    process_yaml_content c1_parse c1_input_text = c1_expected
      ∧ filter_skip_lines c1_input_text = c1_input_text :=
  ⟨rfl, rfl⟩

/-- C2: a sequence whose elements are all strings (any length `≥ 1`)
collapses to the single literal-block string joining the elements with a
newline separator — with no special case for one-element lists. -/
theorem collapse_string_list (l : List String) (h : l ≠ []) :
    process_yaml_data (.seq (l.map Yaml.str))
      = some (.lit (String.intercalate "\n" l)) := by
  have h1 : (l.map Yaml.str).isEmpty = false := by
    cases l with
    | nil => exact absurd rfl h
    | cons a t => rfl
  simp [process_yaml_data, h1, seqAllStr_map_str, joinStrings_map_str]

/-- Witness for C2 at `["a", "b", "c"]` and at the singleton `["a"]`. -/
theorem collapse_string_list_witness :
    process_yaml_data (.seq [.str "a", .str "b", .str "c"]) = some (.lit "a\nb\nc")
      ∧ process_yaml_data (.seq [.str "a"]) = some (.lit "a") :=
  ⟨collapse_string_list ["a", "b", "c"] (by decide),
   collapse_string_list ["a"] (by decide)⟩

/-- C3: in a mapping with distinct keys, a key whose value is an empty
sequence, a number, a boolean or null is omitted entirely from the reduced
mapping, while a string-valued key passes through unchanged. -/
theorem reduce_mapping_drops_nonstring (kvs : List (String × Yaml))
    (k k' : String) (v : Yaml) (s : String)
    (hnodup : (kvs.map Prod.fst).Nodup)
    (hmem : (k, v) ∈ kvs) (hdrop : droppedValue v = true)
    (hmem' : (k', Yaml.str s) ∈ kvs) :
    k ∉ (processMapEntries kvs).map Prod.fst
      ∧ (k', Yaml.str s) ∈ processMapEntries kvs :=
  ⟨processMapEntries_not_mem_dropped kvs k v hnodup hmem hdrop,
   processMapEntries_mem_str kvs k' s hmem'⟩

/-- Witness for C3: in `{a: "x", b: 5}` the key `b` is dropped and the
entry `a: "x"` survives unchanged. -/
theorem reduce_mapping_drops_nonstring_witness :
    "b" ∉ (processMapEntries [("a", Yaml.str "x"), ("b", Yaml.num 5)]).map Prod.fst
      ∧ ("a", Yaml.str "x") ∈ processMapEntries [("a", Yaml.str "x"), ("b", Yaml.num 5)] :=
  reduce_mapping_drops_nonstring _ "b" "a" (Yaml.num 5) "x"
    (by decide) (by simp) rfl (by simp)

/-- C4 counterexample: the claim includes non-empty sequences of strings
in the class on which reduction is claimed to be the identity, but the
reducer collapses such a sequence to a literal block scalar:
`["x", "y"]` reduces to the string `"x\ny"`, not to itself. -/
theorem reduce_not_id_on_string_seq :
    process_yaml_data (.seq [.str "x", .str "y"])
      ≠ some (.seq [.str "x", .str "y"]) := by
  rw [show process_yaml_data (.seq [.str "x", .str "y"]) = some (.lit "x\ny") from rfl]
  simp

/-- C4 (amended): on documents built only from string scalars (plain or
literal) and non-empty mappings — the canonical image of the reducer,
with no sequences — reduction is the identity. -/
theorem reduce_id_on_canonical (d : Yaml) (h : canonicalDoc d = true) :
    process_yaml_data d = some d :=
  canonical_reduce_id d h

/-- Witness for C4 (amended) at `{a: "x", c: {d: "ok"}}`. -/
theorem reduce_id_on_canonical_witness :
    process_yaml_data (.map [("a", .str "x"), ("c", .map [("d", .lit "ok")])])
      = some (.map [("a", .str "x"), ("c", .map [("d", .lit "ok")])]) :=
  reduce_id_on_canonical _ rfl

/-- C9: reduction of a mapping commutes with any injective renaming of its
keys — the kept keys (under the renaming) and each kept key's reduced
value are identical, so no key name is special-cased. -/
theorem reduce_key_renaming_equivariant (ρ : String → String)
    (hinj : Function.Injective ρ) (kvs : List (String × Yaml)) :
    processMapEntries (kvs.map fun kv => (ρ kv.1, kv.2))
      = (processMapEntries kvs).map fun kv => (ρ kv.1, kv.2) := by
  induction kvs with
  | nil => rfl
  | cons hd tl ih =>
      obtain ⟨k, v⟩ := hd
      cases hp : process_yaml_data v <;> simp [processMapEntries, hp, ih]

/-- Witness for C9 with the injective renaming `id` on `{a: 1, b: "s"}`. -/
theorem reduce_key_renaming_equivariant_witness :
    processMapEntries ([("a", Yaml.num 1), ("b", Yaml.str "s")].map fun kv => (id kv.1, kv.2))
      = (processMapEntries [("a", Yaml.num 1), ("b", Yaml.str "s")]).map
          fun kv => (id kv.1, kv.2) :=
  reduce_key_renaming_equivariant id Function.injective_id _

/-- C10: a mixed sequence whose surviving elements after per-item
reduction are all strings (including strings produced by collapsing
nested string lists) collapses into one literal block-scalar string;
when some surviving element is a non-string container the result remains
a sequence of the survivors. -/
theorem mixed_seq_collapse (xs : List Yaml) (h1 : xs ≠ [])
    (h2 : processSeqItems xs ≠ []) :
    (seqAllStr (processSeqItems xs) = true →
        process_yaml_data (.seq xs) = some (.lit (joinStrings (processSeqItems xs))))
      ∧ (seqAllStr (processSeqItems xs) = false →
          process_yaml_data (.seq xs) = some (.seq (processSeqItems xs))) := by
  have hne : xs.isEmpty = false := by
    cases xs with
    | nil => exact absurd rfl h1
    | cons a t => rfl
  have hpe : (processSeqItems xs).isEmpty = false := by
    cases hps : processSeqItems xs with
    | nil => exact absurd hps h2
    | cons a t => rfl
  constructor
  · intro hall
    rcases Bool.eq_false_or_eq_true (seqAllStr xs) with hx | hx
    · rw [processSeqItems_of_allStr xs hx]
      simp [process_yaml_data, hne, hx]
    · simp [process_yaml_data, hne, hx, hall, hpe]
  · intro hall
    have hx : seqAllStr xs = false := by
      rcases Bool.eq_false_or_eq_true (seqAllStr xs) with hx | hx
      · rw [processSeqItems_of_allStr xs hx] at hall
        rw [hx] at hall
        exact absurd hall (by simp)
      · exact hx
    simp [process_yaml_data, hne, hx, hall, hpe]

/-- Witness for C10: `["a", ["b", "c"]]` flattens and collapses to
`"a\nb\nc"`, and `["a", 5, "b"]` collapses to `"a\nb"`. -/
theorem mixed_seq_collapse_witness :
    process_yaml_data (.seq [.str "a", .seq [.str "b", .str "c"]]) = some (.lit "a\nb\nc")
      ∧ process_yaml_data (.seq [.str "a", .num 5, .str "b"]) = some (.lit "a\nb") :=
  ⟨(mixed_seq_collapse [.str "a", .seq [.str "b", .str "c"]]
      (by simp) (fun h => absurd (congrArg List.length h) (by decide))).1 rfl,
   (mixed_seq_collapse [.str "a", .num 5, .str "b"]
      (by simp) (fun h => absurd (congrArg List.length h) (by decide))).1 rfl⟩

/-! ## Helper lemmas about the comment filter -/

theorem isInfixOfChars_iff (pat : List Char) : ∀ l : List Char,
    isInfixOfChars pat l = true ↔ ∃ x y, l = x ++ (pat ++ y) := by
  intro l
  induction l with
  | nil =>
      simp only [isInfixOfChars, List.isEmpty_iff]
      constructor
      · rintro rfl
        exact ⟨[], [], rfl⟩
      · rintro ⟨x, y, h⟩
        rcases List.append_eq_nil.mp h.symm with ⟨hx, h2⟩
        exact (List.append_eq_nil.mp h2).1
  | cons c rest ih =>
      simp only [isInfixOfChars, Bool.or_eq_true]
      constructor
      · rintro (hp | hi)
        · rcases List.isPrefixOf_iff_prefix.mp hp with ⟨t, ht⟩
          exact ⟨[], t, by simpa using ht.symm⟩
        · rcases ih.mp hi with ⟨x, y, h⟩
          exact ⟨c :: x, y, by simp [h]⟩
      · rintro ⟨x, y, h⟩
        cases x with
        | nil =>
            exact Or.inl (List.isPrefixOf_iff_prefix.mpr ⟨y, by simpa using h.symm⟩)
        | cons a x' =>
            rw [List.cons_append] at h
            injection h with h1 h2
            exact Or.inr (ih.mpr ⟨x', y, h2⟩)

theorem hashThenPhrase_iff (p : List Char) : ∀ l : List Char,
    hashThenPhrase p l = true
      ↔ ∃ a b, l = a ++ '#' :: b ∧ isInfixOfChars p b = true := by
  intro l
  induction l with
  | nil =>
      simp only [hashThenPhrase]
      constructor
      · intro h; exact absurd h (by simp)
      · rintro ⟨a, b, h, _⟩
        rcases List.append_eq_nil.mp h.symm with ⟨_, h2⟩
        exact absurd h2 (by simp)
  | cons c rest ih =>
      simp only [hashThenPhrase, Bool.or_eq_true, Bool.and_eq_true, beq_iff_eq]
      constructor
      · rintro (⟨rfl, hi⟩ | hrec)
        · exact ⟨[], rest, rfl, hi⟩
        · rcases ih.mp hrec with ⟨a, b, rfl, hi⟩
          exact ⟨c :: a, b, rfl, hi⟩
      · rintro ⟨a, b, h, hi⟩
        cases a with
        | nil =>
            injection h with h1 h2
            subst h1; subst h2
            exact Or.inl ⟨rfl, hi⟩
        | cons d a' =>
            rw [List.cons_append] at h
            injection h with h1 h2
            exact Or.inr (ih.mpr ⟨a', b, h2, hi⟩)

/-! ## Claims about the comment filter -/

/-- C6 counterexample: the claim lists `"no translate"` and `"skip"` among
the markers that cause a line to be dropped, but `should_skip_line`
returns `False` for comment lines carrying them (its four patterns only
match "do not translate" and "don't translate"). -/
theorem skip_markers_not_matched :
    should_skip_line "greeting: \"hi\" # skip" = false
      ∧ should_skip_line "greeting: \"hi\" # no translate" = false :=
  ⟨rfl, rfl⟩

/-- C6 (amended): a line is dropped iff, after lower-casing, it contains a
`#` followed anywhere later in the line by "do not translate" or
"don't translate" (the only two markers; "no translate" and "skip" are not
among them); the filter drops exactly those whole lines, so the kept lines
are a subsequence of the input lines containing every non-matching line. -/
theorem skip_line_characterization (line content : String) :
    (should_skip_line line = true
        ↔ (∃ a b y, lowerChars line = a ++ '#' :: (b ++ ("do not translate".toList ++ y)))
          ∨ ∃ a b y, lowerChars line = a ++ '#' :: (b ++ ("don't translate".toList ++ y)))
      ∧ List.Sublist ((splitLines content).filter fun l => !should_skip_line l)
          (splitLines content)
      ∧ ∀ l ∈ splitLines content, should_skip_line l = false →
          l ∈ (splitLines content).filter fun l => !should_skip_line l := by
  refine ⟨?_, List.filter_sublist _, fun l hl hns => List.mem_filter.mpr ⟨hl, by simp [hns]⟩⟩
  have hlow1 : lowerChars "DO NOT translate" = "do not translate".toList := rfl
  have hlow2 : lowerChars "do not translate" = "do not translate".toList := rfl
  have hlow3 : lowerChars "Don't translate" = "don't translate".toList := rfl
  have hlow4 : lowerChars "don't translate" = "don't translate".toList := rfl
  simp only [should_skip_line, skip_phrases, List.any_cons, List.any_nil,
    Bool.or_eq_true, Bool.or_false, hlow1, hlow2, hlow3, hlow4,
    hashThenPhrase_iff, isInfixOfChars_iff]
  constructor
  · rintro (h | h | h | h)
    · rcases h with ⟨a, b, hab, x, y, hxy⟩
      exact Or.inl ⟨a, x, y, by rw [hab, hxy]⟩
    · rcases h with ⟨a, b, hab, x, y, hxy⟩
      exact Or.inl ⟨a, x, y, by rw [hab, hxy]⟩
    · rcases h with ⟨a, b, hab, x, y, hxy⟩
      exact Or.inr ⟨a, x, y, by rw [hab, hxy]⟩
    · rcases h with ⟨a, b, hab, x, y, hxy⟩
      exact Or.inr ⟨a, x, y, by rw [hab, hxy]⟩
  · rintro (⟨a, b, y, h⟩ | ⟨a, b, y, h⟩)
    · exact Or.inl ⟨a, b ++ ("do not translate".toList ++ y), h, b, y, rfl⟩
    · exact Or.inr (Or.inr (Or.inl ⟨a, b ++ ("don't translate".toList ++ y), h, b, y, rfl⟩))

/-! ## Claims about the change detector and error isolation -/

/-- C7: `save_yaml_file` with an existing target file whose parsed content
is structurally equal (Python `==`, order- and quote-insensitive) to the
new document performs no write and returns `False`; when the parsed
content differs, or the file is absent, it writes the serialized new
document and returns `True`. -/
theorem save_yaml_file_change_detector (parse : String → Except Unit Yaml)
    (dump : Yaml → String) (data y : Yaml) (s : String)
    (hparse : parse s = .ok y) :
    (pyEq y data = true →
        save_yaml_file parse dump data (some s) = (some s, false))
      ∧ (pyEq y data = false →
          save_yaml_file parse dump data (some s) = (some (dump data), true))
      ∧ save_yaml_file parse dump data none = (some (dump data), true) := by
  refine ⟨?_, ?_, rfl⟩ <;> intro h <;> simp [save_yaml_file, hparse, h]

/-- Witness for C7: the on-disk document `{b: "2", a: "1"}` is structurally
equal to the new document `{a: "1", b: "2"}` despite different key order,
so the file bytes are kept and `False` is returned. -/
theorem save_yaml_file_change_detector_witness :
    save_yaml_file (fun _ => Except.ok (Yaml.map [("b", Yaml.str "2"), ("a", Yaml.str "1")]))
        (fun _ => "new") (Yaml.map [("a", Yaml.str "1"), ("b", Yaml.str "2")]) (some "old")
      = (some "old", false) :=
  (save_yaml_file_change_detector _ _ _ _ "old" rfl).1
    (by simp [pyEq, pyMapSubset, pyMapLookupEq])

/-- C8: a parse failure is a file-level failure only — `process_yaml_content`
catches it and returns the empty mapping, the file's pull reports `False`,
and the repository loop processes every other file exactly as if the
failing file were absent; an explicit empty document (ruamel loads it as
`None`) also yields the empty mapping rather than a failure. -/
theorem parse_failure_isolated (parse : String → Except Unit Yaml)
    (save : Yaml → Except Unit Bool) (badContent emptyContent : String)
    (files₁ files₂ : List (String × Except Unit String)) (nm : String)
    (hbad : parse (filter_skip_lines badContent) = .error ())
    (hnull : parse (filter_skip_lines emptyContent) = .ok .null) :
    process_yaml_content parse badContent = .map []
      ∧ process_yaml_content parse emptyContent = .map []
      ∧ pull_file parse save (.ok badContent) = false
      ∧ pull_repo parse save (files₁ ++ (nm, .ok badContent) :: files₂)
          = pull_repo parse save files₁ ++ pull_repo parse save files₂ := by
  have hc : process_yaml_content parse badContent = .map [] := by
    simp [process_yaml_content, hbad]
  have hn : process_yaml_content parse emptyContent = .map [] := by
    simp [process_yaml_content, hnull, process_yaml_data, finalizeProcessed]
  have hf : pull_file parse save (.ok badContent) = false := by
    simp [pull_file, hc, yamlTruthy]
  refine ⟨hc, hn, hf, ?_⟩
  induction files₁ with
  | nil => simp [pull_repo, hf]
  | cons hd tl ih =>
      obtain ⟨n0, d0⟩ := hd
      cases hpf : pull_file parse save d0 <;> simp [pull_repo, hpf, ih]

/-- Witness for C8 with a concrete parser that fails on `"bad"`, loads the
empty document as `None`, and succeeds on everything else. -/
theorem parse_failure_isolated_witness :
    process_yaml_content c8_parse "bad" = .map []
      ∧ process_yaml_content c8_parse "" = .map []
      ∧ pull_file c8_parse (fun _ => .ok true) (.ok "bad") = false
      ∧ pull_repo c8_parse (fun _ => .ok true)
            ([("f1", .ok "k: v")] ++ ("f2", .ok "bad") :: [("f3", .ok "k: v")])
          = pull_repo c8_parse (fun _ => .ok true) [("f1", .ok "k: v")]
              ++ pull_repo c8_parse (fun _ => .ok true) [("f3", .ok "k: v")] :=
  parse_failure_isolated c8_parse (fun _ => .ok true) "bad" ""
    [("f1", .ok "k: v")] [("f3", .ok "k: v")] "f2" rfl rfl

/-! ## Helper lemmas about lines, splitting and joining -/

theorem isPrefixOf_append_self (p t : List Char) : p.isPrefixOf (p ++ t) = true :=
  List.isPrefixOf_iff_prefix.mpr (List.prefix_append p t)

theorem drop_pad (ind : Nat) (x : List Char) : (padC ind ++ x).drop ind = x := by
  have h := List.drop_left (padC ind) x
  rwa [padC, List.length_replicate] at h

theorem pad_isPrefixOf_false (m j : Nat) (c : Char) (t : List Char)
    (hj : j < m) (hc : c ≠ ' ') : (padC m).isPrefixOf (padC j ++ c :: t) = false := by
  by_contra h
  rw [Bool.not_eq_false, List.isPrefixOf_iff_prefix] at h
  obtain ⟨u, hu⟩ := h
  have hsplit : padC m = padC j ++ padC (m - j) := by
    rw [padC, padC, padC, ← List.replicate_add]
    congr 1
    omega
  rw [hsplit, List.append_assoc] at hu
  have hu' : padC (m - j) ++ u = c :: t := List.append_cancel_left hu
  obtain ⟨i, hi⟩ : ∃ i, m - j = i + 1 := ⟨m - j - 1, by omega⟩
  rw [hi, padC, List.replicate_succ, List.cons_append] at hu'
  exact hc (List.head_eq_of_cons_eq hu').symm

theorem pad_isPrefixOf_nil_false (m : Nat) (hm : 0 < m) :
    (padC m).isPrefixOf ([] : List Char) = false := by
  obtain ⟨i, rfl⟩ : ∃ i, m = i + 1 := ⟨m - 1, by omega⟩
  rw [padC, List.replicate_succ]
  rfl

theorem isEntryLine_pad (ind : Nat) (c : Char) (t : List Char) (hc : c ≠ ' ') :
    isEntryLine ind (padC ind ++ c :: t) = true := by
  rw [isEntryLine, isPrefixOf_append_self, drop_pad]
  simpa using hc

theorem isEntryLine_nil_false (ind : Nat) : isEntryLine ind ([] : List Char) = false := by
  rw [isEntryLine]
  rcases Nat.eq_zero_or_pos ind with h | h
  · subst h; rfl
  · rw [pad_isPrefixOf_nil_false ind h]; rfl

theorem isEntryLine_false_of_headSafe (ind : Nat) (l : List Char) (ls : List (List Char))
    (h : headSafe ind (l :: ls)) : isEntryLine ind l = false := by
  rcases h with rfl | ⟨j, hj, c, t, hc, rfl⟩
  · exact isEntryLine_nil_false ind
  · rw [isEntryLine, pad_isPrefixOf_false ind j c t hj hc]
    rfl

theorem splitAtColon_append (key r : List Char) (hk : (':' : Char) ∉ key) :
    splitAtColon (key ++ ':' :: r) = some (key, r) := by
  induction key with
  | nil => simp [splitAtColon]
  | cons c cs ih =>
      rw [List.mem_cons, not_or] at hk
      obtain ⟨hc, hcs⟩ := hk
      rw [List.cons_append, splitAtColon, if_neg (fun h => hc h.symm), ih hcs]

theorem takeIndented_map_append (p : List Char) (ls rest : List (List Char))
    (hstop : rest = [] ∨ ∃ l rs, rest = l :: rs ∧ p.isPrefixOf l = false) :
    takeIndented p (ls.map (fun l => p ++ l) ++ rest) = (ls, rest) := by
  induction ls with
  | nil =>
      rcases hstop with rfl | ⟨l, rs, rfl, hl⟩
      · rfl
      · simp [takeIndented, hl]
  | cons a tl ih =>
      rw [List.map_cons, List.cons_append, takeIndented,
        if_pos (isPrefixOf_append_self p a), ih]
      simp [List.drop_left]

theorem splitLinesChars_cons_eq (c : Char) (rest h : List Char) (t : List (List Char))
    (hs : splitLinesChars rest = h :: t) :
    splitLinesChars (c :: rest) = if c = '\n' then [] :: h :: t else (c :: h) :: t := by
  rw [splitLinesChars, hs]

theorem splitLinesChars_ne_nil (cs : List Char) : splitLinesChars cs ≠ [] := by
  cases cs with
  | nil => simp [splitLinesChars]
  | cons c rest =>
      rw [splitLinesChars]
      cases splitLinesChars rest with
      | nil => simp
      | cons h t => by_cases hc : c = '\n' <;> simp [hc]

theorem joinNL_cons_cons (l h : List Char) (t : List (List Char)) :
    joinNL (l :: h :: t) = l ++ '\n' :: joinNL (h :: t) := rfl

theorem joinNL_splitLinesChars (cs : List Char) : joinNL (splitLinesChars cs) = cs := by
  induction cs with
  | nil => rfl
  | cons c rest ih =>
      rw [splitLinesChars]
      rcases hs : splitLinesChars rest with _ | ⟨h, t⟩
      · exact absurd hs (splitLinesChars_ne_nil rest)
      · rw [hs] at ih
        show joinNL (if c = '\n' then [] :: h :: t else (c :: h) :: t) = c :: rest
        by_cases hc : c = '\n'
        · subst hc
          rw [if_pos rfl]
          simp [joinNL, ih]
        · rw [if_neg hc]
          cases t with
          | nil =>
              simp only [joinNL] at ih ⊢
              rw [ih]
          | cons t0 ts =>
              rw [joinNL_cons_cons, List.cons_append]
              rw [joinNL_cons_cons] at ih
              rw [ih]

theorem splitLinesChars_append_newline (l rest : List Char) (hl : ('\n' : Char) ∉ l) :
    splitLinesChars (l ++ '\n' :: rest) = l :: splitLinesChars rest := by
  induction l with
  | nil =>
      rw [List.nil_append, splitLinesChars]
      rcases hs : splitLinesChars rest with _ | ⟨h, t⟩
      · exact absurd hs (splitLinesChars_ne_nil rest)
      · simp
  | cons c cs ih =>
      rw [List.mem_cons, not_or] at hl
      obtain ⟨hc, hcs⟩ := hl
      have hc' : c ≠ '\n' := fun h => hc h.symm
      rw [List.cons_append, splitLinesChars, ih hcs]
      simp [hc']

theorem splitLinesChars_joinNL (ls : List (List Char)) (hne : ls ≠ [])
    (hnl : ∀ l ∈ ls, ('\n' : Char) ∉ l) :
    splitLinesChars (joinNL ls ++ ['\n']) = ls ++ [[]] := by
  induction ls with
  | nil => exact absurd rfl hne
  | cons a tl ih =>
      cases tl with
      | nil =>
          rw [joinNL, splitLinesChars_append_newline a [] (hnl a (by simp))]
          rfl
      | cons b ts =>
          have hih := ih (by simp) (fun l hl => hnl l (List.mem_cons_of_mem a hl))
          rw [joinNL_cons_cons, List.cons_append, List.append_assoc, List.cons_append,
            splitLinesChars_append_newline a _ (hnl a (by simp)), hih]

/-! ## Helper lemmas about safe keys and values -/

theorem safeKey_head (k : String) (h : safeKey k = true) :
    ∃ c t, c ≠ ' ' ∧ k.data = c :: t := by
  rw [safeKey] at h
  simp only [Bool.and_eq_true] at h
  obtain ⟨⟨h1, h2⟩, _⟩ := h
  rcases hd : k.data with _ | ⟨c, t⟩
  · rw [hd] at h1; simp at h1
  · rw [hd] at h2
    refine ⟨c, t, ?_, rfl⟩
    simpa using h2

theorem safeKey_all (k : String) (h : safeKey k = true) :
    (k.data.all fun c => c != ':' && c != '\n') = true := by
  rw [safeKey] at h
  simp only [Bool.and_eq_true] at h
  exact h.2

theorem safeKey_no_colon (k : String) (h : safeKey k = true) : (':' : Char) ∉ k.data := by
  intro hmem
  have := List.all_eq_true.mp (safeKey_all k h) _ hmem
  simp at this

theorem safeKey_no_newline (k : String) (h : safeKey k = true) : ('\n' : Char) ∉ k.data := by
  intro hmem
  have := List.all_eq_true.mp (safeKey_all k h) _ hmem
  simp at this

theorem safeStr_no_newline (s : String) (h : safeStr s = true) : ('\n' : Char) ∉ s.data := by
  rw [safeStr, Bool.and_eq_true] at h
  intro hmem
  have := List.all_eq_true.mp h.1 _ hmem
  simp at this

theorem safeStr_ne_block (s : String) (h : safeStr s = true) : s.data ≠ ['|', '-'] := by
  rw [safeStr, Bool.and_eq_true] at h
  simpa using h.2

theorem pad_no_newline (n : Nat) : ('\n' : Char) ∉ padC n := by
  simp [padC, List.mem_replicate]

theorem string_mk_data (s : String) : String.mk s.data = s := rfl

theorem splitLinesChars_no_newline (cs : List Char) :
    ∀ l ∈ splitLinesChars cs, ('\n' : Char) ∉ l := by
  induction cs with
  | nil => simp [splitLinesChars]
  | cons c rest ih =>
      intro l hl
      rcases hs : splitLinesChars rest with _ | ⟨h, t⟩
      · exact absurd hs (splitLinesChars_ne_nil rest)
      · rw [splitLinesChars_cons_eq c rest h t hs] at hl
        have hmem : ∀ x ∈ h :: t, ('\n' : Char) ∉ x := by
          rw [← hs]; exact ih
        by_cases hc : c = '\n'
        · rw [if_pos hc] at hl
          rcases List.mem_cons.mp hl with rfl | hl'
          · simp
          · exact hmem l hl'
        · rw [if_neg hc] at hl
          rcases List.mem_cons.mp hl with rfl | hl'
          · intro hcon
            rcases List.mem_cons.mp hcon with rfl | hcon'
            · exact hc rfl
            · exact hmem h (by simp) hcon'
          · exact hmem l (List.mem_cons_of_mem h hl')

/-! ## No serialized line contains a newline; fuel and head-shape facts -/

theorem serEntriesC_no_newline : ∀ (kvs : List (String × Yaml)) (ind : Nat),
    safeEntries kvs = true → ∀ l ∈ serEntriesC ind kvs, ('\n' : Char) ∉ l
  | [], _, _ => by simp [serEntriesC]
  | (k, v) :: tl, ind, hs => by
      simp only [safeEntries, Bool.and_eq_true] at hs
      obtain ⟨⟨hk, hv⟩, htl⟩ := hs
      intro l hl
      rw [serEntriesC, List.mem_append] at hl
      rcases hl with hl | hl
      · cases v with
        | str s =>
            rw [serValueC, List.mem_singleton] at hl
            subst hl
            intro hcon
            rcases List.mem_append.mp hcon with hx | hx
            · rcases List.mem_append.mp hx with hx' | hx'
              · exact pad_no_newline ind hx'
              · exact safeKey_no_newline k hk hx'
            · rcases List.mem_cons.mp hx with h1 | h1
              · exact absurd h1 (by simp)
              · rcases List.mem_cons.mp h1 with h2 | h2
                · exact absurd h2 (by simp)
                · exact safeStr_no_newline s hv h2
        | lit s =>
            rw [serValueC, List.mem_cons] at hl
            rcases hl with rfl | hl
            · intro hcon
              rcases List.mem_append.mp hcon with hx | hx
              · rcases List.mem_append.mp hx with hx' | hx'
                · exact pad_no_newline ind hx'
                · exact safeKey_no_newline k hk hx'
              · simp at hx
            · rcases List.mem_map.mp hl with ⟨bl, hbl, rfl⟩
              intro hcon
              rcases List.mem_append.mp hcon with hx | hx
              · exact pad_no_newline (ind + 2) hx
              · exact splitLinesChars_no_newline s.data bl hbl hx
        | map m =>
            rw [serValueC, List.mem_cons] at hl
            rcases hl with rfl | hl
            · intro hcon
              rcases List.mem_append.mp hcon with hx | hx
              · rcases List.mem_append.mp hx with hx' | hx'
                · exact pad_no_newline ind hx'
                · exact safeKey_no_newline k hk hx'
              · simp at hx
            · exact serEntriesC_no_newline m (ind + 2) hv l hl
        | num n => simp [safeValue] at hv
        | boolv b => simp [safeValue] at hv
        | null => simp [safeValue] at hv
        | seq xs => simp [safeValue] at hv
      · exact serEntriesC_no_newline tl ind htl l hl

theorem entriesFuel_le : ∀ (kvs : List (String × Yaml)) (ind : Nat),
    safeEntries kvs = true → entriesFuel kvs ≤ (serEntriesC ind kvs).length + 1
  | [], _, _ => by simp [entriesFuel, serEntriesC]
  | (k, v) :: tl, ind, hs => by
      simp only [safeEntries, Bool.and_eq_true] at hs
      obtain ⟨⟨hk, hv⟩, htl⟩ := hs
      have htl' := entriesFuel_le tl ind htl
      rw [entriesFuel, serEntriesC, List.length_append]
      cases v with
      | str s =>
          rw [show valueFuel (Yaml.str s) = 0 from rfl,
            show (serValueC ind k (Yaml.str s)).length = 1 from rfl]
          omega
      | lit s =>
          have hlen : (serValueC ind k (Yaml.lit s)).length
              = (splitLinesChars s.data).length + 1 := by
            simp [serValueC]
          rw [show valueFuel (Yaml.lit s) = 0 from rfl, hlen]
          omega
      | map m =>
          have hm := entriesFuel_le m (ind + 2) hv
          have hlen : (serValueC ind k (Yaml.map m)).length
              = (serEntriesC (ind + 2) m).length + 1 := by
            simp [serValueC]
          rw [show valueFuel (Yaml.map m) = entriesFuel m from rfl, hlen]
          omega
      | num n => simp [safeValue] at hv
      | boolv b => simp [safeValue] at hv
      | null => simp [safeValue] at hv
      | seq xs => simp [safeValue] at hv

theorem serValueC_head (ind : Nat) (k : String) (v : Yaml)
    (hk : safeKey k = true) (hv : safeValue v = true) :
    ∃ c t rest, c ≠ ' ' ∧ serValueC ind k v = (padC ind ++ c :: t) :: rest := by
  obtain ⟨c, kt, hc, hkd⟩ := safeKey_head k hk
  cases v with
  | str s =>
      exact ⟨c, kt ++ (':' :: ' ' :: s.data), [], hc,
        by rw [serValueC, hkd]; simp⟩
  | lit s =>
      exact ⟨c, kt ++ [':', ' ', '|', '-'],
        (splitLinesChars s.data).map (fun l => padC (ind + 2) ++ l), hc,
        by rw [serValueC, hkd]; simp⟩
  | map m =>
      exact ⟨c, kt ++ [':'], serEntriesC (ind + 2) m, hc,
        by rw [serValueC, hkd]; simp⟩
  | num n => simp [safeValue] at hv
  | boolv b => simp [safeValue] at hv
  | null => simp [safeValue] at hv
  | seq xs => simp [safeValue] at hv

theorem headSafe_mono (i j : Nat) (hij : i ≤ j) (rest : List (List Char))
    (h : headSafe i rest) : headSafe j rest := by
  cases rest with
  | nil => trivial
  | cons l rs =>
      rcases h with rfl | ⟨jj, hjj, c, t, hc, rfl⟩
      · exact Or.inl rfl
      · exact Or.inr ⟨jj, by omega, c, t, hc, rfl⟩

theorem headSafe_entries (tl : List (String × Yaml)) (ind m : Nat)
    (rest : List (List Char)) (htl : safeEntries tl = true)
    (hh : headSafe ind rest) (hm : ind < m) :
    headSafe m (serEntriesC ind tl ++ rest) := by
  cases tl with
  | nil =>
      rw [serEntriesC, List.nil_append]
      exact headSafe_mono ind m (by omega) rest hh
  | cons hd tt =>
      obtain ⟨k2, v2⟩ := hd
      simp only [safeEntries, Bool.and_eq_true] at htl
      obtain ⟨⟨hk2, hv2⟩, _⟩ := htl
      obtain ⟨c, t, more, hc, hser⟩ := serValueC_head ind k2 v2 hk2 hv2
      rw [serEntriesC, hser, List.cons_append, List.cons_append]
      exact Or.inr ⟨ind, hm, c, t, hc, rfl⟩

theorem stop_of_headSafe (m : Nat) (hm : 0 < m) (rest : List (List Char))
    (hh : headSafe m rest) :
    rest = [] ∨ ∃ l rs, rest = l :: rs ∧ (padC m).isPrefixOf l = false := by
  cases rest with
  | nil => exact Or.inl rfl
  | cons l rs =>
      refine Or.inr ⟨l, rs, rfl, ?_⟩
      rcases hh with rfl | ⟨j, hj, c, t, hc, rfl⟩
      · exact pad_isPrefixOf_nil_false m hm
      · exact pad_isPrefixOf_false m j c t hj hc

/-! ## The round-trip of the modelled serializer and normalizer -/

theorem parseEntries_serEntriesC : ∀ (kvs : List (String × Yaml)) (ind fuel : Nat)
    (rest : List (List Char)), safeEntries kvs = true → headSafe ind rest →
    entriesFuel kvs ≤ fuel →
    parseEntries fuel ind (serEntriesC ind kvs ++ rest) = some (kvs, rest)
  | [], ind, fuel, rest, _, hh, hf => by
      obtain ⟨g, rfl⟩ : ∃ g, fuel = g + 1 := ⟨fuel - 1, by rw [entriesFuel] at hf; omega⟩
      rw [serEntriesC, List.nil_append]
      cases rest with
      | nil => rfl
      | cons l rs =>
          have hline := isEntryLine_false_of_headSafe ind l rs hh
          simp [parseEntries, hline]
  | (k, .str s) :: tl, ind, fuel, rest, hs, hh, hf => by
      simp only [safeEntries, Bool.and_eq_true] at hs
      obtain ⟨⟨hk, hv⟩, htl⟩ := hs
      obtain ⟨g, rfl⟩ : ∃ g, fuel = g + 1 := ⟨fuel - 1, by rw [entriesFuel] at hf; omega⟩
      have hgtl : entriesFuel tl ≤ g := by rw [entriesFuel] at hf; omega
      obtain ⟨c, kt, hc, hkd⟩ := safeKey_head k hk
      have hcont := parseEntries_serEntriesC tl ind g rest htl hh hgtl
      have hbl : ¬ (s.data = ['|', '-']) := safeStr_ne_block s hv
      have hline : isEntryLine ind (padC ind ++ (k.data ++ (':' :: ' ' :: s.data))) = true := by
        rw [hkd, List.cons_append]
        exact isEntryLine_pad ind c (kt ++ (':' :: ' ' :: s.data)) hc
      have hsplit := splitAtColon_append k.data (' ' :: s.data) (safeKey_no_colon k hk)
      simp only [serEntriesC, serValueC, List.cons_append, List.nil_append,
        List.append_assoc]
      simp [parseEntries, hline, drop_pad, hsplit, hbl, hcont, string_mk_data]
  | (k, .lit s) :: tl, ind, fuel, rest, hs, hh, hf => by
      simp only [safeEntries, Bool.and_eq_true] at hs
      obtain ⟨⟨hk, hv⟩, htl⟩ := hs
      obtain ⟨g, rfl⟩ : ∃ g, fuel = g + 1 := ⟨fuel - 1, by rw [entriesFuel] at hf; omega⟩
      have hgtl : entriesFuel tl ≤ g := by rw [entriesFuel] at hf; omega
      obtain ⟨c, kt, hc, hkd⟩ := safeKey_head k hk
      have hcont := parseEntries_serEntriesC tl ind g rest htl hh hgtl
      have hline : isEntryLine ind (padC ind ++ (k.data ++ [':', ' ', '|', '-'])) = true := by
        rw [hkd, List.cons_append]
        exact isEntryLine_pad ind c (kt ++ [':', ' ', '|', '-']) hc
      have hsplit := splitAtColon_append k.data [' ', '|', '-'] (safeKey_no_colon k hk)
      have hhs : headSafe (ind + 2) (serEntriesC ind tl ++ rest) :=
        headSafe_entries tl ind (ind + 2) rest htl hh (by omega)
      have htake := takeIndented_map_append (padC (ind + 2)) (splitLinesChars s.data)
        (serEntriesC ind tl ++ rest)
        (stop_of_headSafe (ind + 2) (by omega) _ hhs)
      simp only [serEntriesC, serValueC, List.cons_append, List.nil_append,
        List.append_assoc]
      simp [parseEntries, hline, drop_pad, hsplit, htake, hcont,
        joinNL_splitLinesChars, string_mk_data]
  | (k, .map m) :: tl, ind, fuel, rest, hs, hh, hf => by
      simp only [safeEntries, Bool.and_eq_true] at hs
      obtain ⟨⟨hk, hv⟩, htl⟩ := hs
      obtain ⟨g, rfl⟩ : ∃ g, fuel = g + 1 := ⟨fuel - 1, by rw [entriesFuel] at hf; omega⟩
      have hgv : entriesFuel m ≤ g := by
        rw [entriesFuel] at hf
        rw [show valueFuel (Yaml.map m) = entriesFuel m from rfl] at hf
        omega
      have hgtl : entriesFuel tl ≤ g := by rw [entriesFuel] at hf; omega
      obtain ⟨c, kt, hc, hkd⟩ := safeKey_head k hk
      have hcont := parseEntries_serEntriesC tl ind g rest htl hh hgtl
      have hline : isEntryLine ind (padC ind ++ (k.data ++ [':'])) = true := by
        rw [hkd, List.cons_append]
        exact isEntryLine_pad ind c (kt ++ [':']) hc
      have hsplit := splitAtColon_append k.data [] (safeKey_no_colon k hk)
      have hhs : headSafe (ind + 2) (serEntriesC ind tl ++ rest) :=
        headSafe_entries tl ind (ind + 2) rest htl hh (by omega)
      have hnested := parseEntries_serEntriesC m (ind + 2) g
        (serEntriesC ind tl ++ rest) hv hhs hgv
      simp only [serEntriesC, serValueC, List.cons_append, List.nil_append,
        List.append_assoc]
      simp [parseEntries, hline, drop_pad, hsplit, hnested, hcont, string_mk_data]
  | (k, .num n) :: tl, _, _, _, hs, _, _ => by simp [safeEntries, safeValue] at hs
  | (k, .boolv b) :: tl, _, _, _, hs, _, _ => by simp [safeEntries, safeValue] at hs
  | (k, .null) :: tl, _, _, _, hs, _, _ => by simp [safeEntries, safeValue] at hs
  | (k, .seq xs) :: tl, _, _, _, hs, _, _ => by simp [safeEntries, safeValue] at hs

theorem serEntriesC_ne_nil (kvs : List (String × Yaml)) (ind : Nat)
    (hs : safeEntries kvs = true) (hne : kvs ≠ []) : serEntriesC ind kvs ≠ [] := by
  cases kvs with
  | nil => exact absurd rfl hne
  | cons hd tl =>
      obtain ⟨k, v⟩ := hd
      simp only [safeEntries, Bool.and_eq_true] at hs
      obtain ⟨⟨hk, hv⟩, _⟩ := hs
      obtain ⟨c, t, more, hc, hser⟩ := serValueC_head ind k v hk hv
      rw [serEntriesC, hser]
      simp

/-- C5 (spec-modelled): serializing a canonical document with the modelled
Canonical Serializer, parsing the text back with the modelled Normalizer,
and serializing again yields byte-identical text; in fact parsing recovers
the document exactly, for every non-empty canonical mapping whose keys and
plain-string scalars avoid the characters that real YAML would have to
quote (no `:`/newline/leading space in keys, no newline and not `|-` as a
plain scalar). -/
theorem serialize_parse_roundtrip (kvs : List (String × Yaml))
    (hsafe : safeEntries kvs = true) (hne : kvs ≠ []) :
    parse (serialize (.map kvs)) = some (.map kvs)
      ∧ (parse (serialize (.map kvs))).map serialize
          = some (serialize (.map kvs)) := by
  have hLne : serEntriesC 0 kvs ≠ [] := serEntriesC_ne_nil kvs 0 hsafe hne
  have hnl : ∀ l ∈ serEntriesC 0 kvs, ('\n' : Char) ∉ l :=
    serEntriesC_no_newline kvs 0 hsafe
  have hlines : splitLinesChars (serialize (Yaml.map kvs)).data
      = serEntriesC 0 kvs ++ [[]] := by
    rw [serialize]
    exact splitLinesChars_joinNL _ hLne hnl
  have hfuel : entriesFuel kvs ≤ (serEntriesC 0 kvs ++ [[]]).length + 1 := by
    have h := entriesFuel_le kvs 0 hsafe
    rw [List.length_append]
    omega
  have hmain := parseEntries_serEntriesC kvs 0
    ((serEntriesC 0 kvs ++ [[]]).length + 1) [[]] hsafe (Or.inl rfl) hfuel
  have hfirst : parse (serialize (Yaml.map kvs)) = some (Yaml.map kvs) := by
    simp only [parse]
    rw [hlines, hmain]
    simp
  exact ⟨hfirst, by rw [hfirst]; rfl⟩

/-- Witness for C5 at the canonical document `{a: "x\ny", c: {d: "ok"}}`
(one literal block scalar, one nested mapping with a plain scalar). -/
theorem serialize_parse_roundtrip_witness :
    parse (serialize (.map [("a", Yaml.lit "x\ny"), ("c", Yaml.map [("d", Yaml.str "ok")])]))
        = some (.map [("a", Yaml.lit "x\ny"), ("c", Yaml.map [("d", Yaml.str "ok")])])
      ∧ (parse (serialize (.map [("a", Yaml.lit "x\ny"),
            ("c", Yaml.map [("d", Yaml.str "ok")])]))).map serialize
          = some (serialize (.map [("a", Yaml.lit "x\ny"),
              ("c", Yaml.map [("d", Yaml.str "ok")])])) :=
  serialize_parse_roundtrip
    [("a", Yaml.lit "x\ny"), ("c", Yaml.map [("d", Yaml.str "ok")])]
    (by decide) (by simp)
